import Mathlib

/-!
Verification of the archive-rewrite core of `mscz-trackname-editor.py`.

The embedding models the Python source directly:
* `load_parts` mirrors `PartNameEditor.load_parts` (XML part extraction),
* `add_numbers` mirrors `PartNameEditor.add_numbers` (bulk numbering),
* `apply_change` mirrors the `apply_change` closure in `edit_part_name`,
* `save_file` mirrors `PartNameEditor.save_file` (backup naming, archive
  rewrite, replacement, record update).

Modelling conventions:
* Python strings that may be `None` are `Option String` (`none` = `None`).
* An XML tree (`xml.etree.ElementTree`) is the inductive `XML`; an element
  carries its tag, attribute list, text (`None` for an empty element) and
  children.  Re-serialisation (`ET.tostring`) is modelled at tree level: the
  document member of the rewritten archive holds the mutated tree.
* A zip member carries its stored name, its compression method
  (`ZipInfo.compress_type`) and its content; `zipfile` reads members by name
  (`getinfo` keeps the last entry for a duplicated name), which `arcRead`
  reproduces.
* The filesystem is an association list from paths to archives.  The
  scratch directory created by `tempfile.mkdtemp` is private and fresh, so
  the archive built inside it is kept outside the modelled filesystem until
  the final move.
* `save_file` additionally returns the sequence of filesystem operations it
  performed (`FsOp`), which records the order of the backup copy, the
  per-member writes with their compression parameters, and the final
  delete/move, and it takes a `SaveEnv` that can inject a failure of the
  backup copy (`shutil.copy2`) or of the rebuild step, modelling the
  exceptions caught by the surrounding `try`/`except`.
-/

namespace Mscz

/-- Python `str.endswith`, modelled on the character list. -/
def strEndsWith (s suffix : String) : Bool :=
  suffix.data.isSuffixOf s.data

/-- Worker for `pyReplace`: scans left to right; `skip` counts characters of a
matched pattern occurrence that still have to be consumed without re-matching. -/
def replaceGo (pat rep : List Char) : Nat → List Char → List Char
  | _, [] => []
  | skip+1, _ :: cs => replaceGo pat rep skip cs
  | 0, c :: cs =>
    if pat ≠ [] ∧ pat.isPrefixOf (c :: cs) then
      rep ++ replaceGo pat rep (pat.length - 1) cs
    else c :: replaceGo pat rep 0 cs

/-- Python `str.replace`: replace every non-overlapping occurrence, leftmost
first.  (For the empty pattern, which the program never uses, it is the
identity.) -/
def pyReplace (s pat rep : String) : String :=
  ⟨replaceGo pat.data rep.data 0 s.data⟩

/-- Python `str.strip` with no argument: drop leading and trailing whitespace. -/
def pyStrip (s : String) : String :=
  ⟨((s.data.dropWhile Char.isWhitespace).reverse.dropWhile Char.isWhitespace).reverse⟩

/-- Python `str(x)` applied to an optional string, as used by the f-string in
`add_numbers` (`None` prints as "None"). -/
def pyStr : Option String → String
  | some s => s
  | none => "None"

/-- An `xml.etree.ElementTree` element: tag, attribute dictionary (association
list, first binding wins), text (`none` when the element has no text, as after
parsing `<a></a>`), and child elements in document order. -/
inductive XML : Type where
  | elem (tag : String) (attrs : List (String × String)) (text : Option String)
      (children : List XML)

def XML.tag : XML → String
  | .elem t _ _ _ => t

def XML.attrs : XML → List (String × String)
  | .elem _ a _ _ => a

def XML.text : XML → Option String
  | .elem _ _ s _ => s

def XML.children : XML → List XML
  | .elem _ _ _ c => c

/-- Dictionary lookup in an attribute list (`element.get(k)` with no default). -/
def attrLookup (a : List (String × String)) (k : String) : Option String :=
  (a.find? (fun p => p.1 = k)).map (·.2)

def XML.attr (x : XML) (k : String) : Option String :=
  attrLookup x.attrs k

/-- The first child with the given tag (`element.find(t)`). -/
def XML.findChild (x : XML) (t : String) : Option XML :=
  x.children.find? (fun c => c.tag = t)

mutual
/-- All elements of a subtree in document (preorder) order, the root included. -/
def XML.allNodes : XML → List XML
  | .elem t a s c => .elem t a s c :: allNodesList c
def allNodesList : List XML → List XML
  | [] => []
  | x :: xs => XML.allNodes x ++ allNodesList xs
end

/-- Result of `root.findall('.//Part')`: every `Part` element strictly below
the root, in document order. -/
def findallParts (root : XML) : List XML :=
  (allNodesList root.children).filter (fun e => e.tag = "Part")

/-- One row of `parts_data`: the part identifier and the current/proposed
names (`current_name` / `new_name`).  Names are optional strings because
`track_name_elem.text` may be Python `None`. -/
structure PartRecord where
  id : String
  currentName : Option String
  newName : Option String
deriving DecidableEq, Repr

/-- The record built for one `Part` element in `load_parts`:
`part.get('id', 'Unknown')` and
`track_name_elem.text if track_name_elem is not None else "Unknown"`. -/
def loadPart (p : XML) : PartRecord :=
  let pid := (p.attr "id").getD "Unknown"
  let tn : Option String :=
    match p.findChild "trackName" with
    | some e => e.text
    | none => some "Unknown"
  ⟨pid, tn, tn⟩

/-- The record list produced by `load_parts` from the parsed document. -/
def load_parts (root : XML) : List PartRecord :=
  (findallParts root).map loadPart

/-- Number of records sharing a `current_name` (the `name_count` dictionary). -/
def nameCount (recs : List PartRecord) (n : Option String) : Nat :=
  recs.countP (fun r => r.currentName = n)

/-- The list comprehension `[j for j, p in enumerate(parts_data) if
p['current_name'] == current_name]` of `add_numbers`. -/
def sameNameIdx (recs : List PartRecord) (n : Option String) : List Nat :=
  (List.range recs.length).filter (fun j => recs[j]?.map PartRecord.currentName = some n)

/-- The body of the second pass of `add_numbers` for the record at index `i`:
number it when its `current_name` is duplicated, leave it alone otherwise. -/
def numberedName (recs : List PartRecord) (i : Nat) (r : PartRecord) : PartRecord :=
  if 1 < nameCount recs r.currentName then
    let nm := pyStr r.currentName ++ " " ++
      Nat.repr ((sameNameIdx recs r.currentName).indexOf i + 1)
    { r with newName := some nm }
  else r

def addNumbersAux (recs : List PartRecord) : Nat → List PartRecord → List PartRecord
  | _, [] => []
  | i, r :: rest => numberedName recs i r :: addNumbersAux recs (i + 1) rest

/-- The `add_numbers` quick action: positional numbering of duplicated
`current_name` values, mutating only `new_name`. -/
def add_numbers (recs : List PartRecord) : List PartRecord :=
  addNumbersAux recs 0 recs

def setNewNameAt : List PartRecord → Nat → String → List PartRecord
  | [], _, _ => []
  | r :: rest, 0, n => { r with newName := some n } :: rest
  | r :: rest, i+1, n => r :: setNewNameAt rest i n

/-- The `apply_change` closure of the edit dialog: strip the entry and, when
non-empty, store it as the `new_name` of the edited row. -/
def apply_change (recs : List PartRecord) (i : Nat) (entry : String) : List PartRecord :=
  let n := pyStrip entry
  if n ≠ "" then setNewNameAt recs i n else recs

/-- The `new_name` written into a `Part` with the given `id` attribute value by
the update loop of `save_file`: each record with `part_data['id'] == part_id`
and `new_name != current_name` assigns in turn, so the last such record wins;
`none` when no record matches (in particular when the attribute is absent,
since `part.get('id')` is Python `None` then, which equals no string). -/
def lastChangedName (recs : List PartRecord) (idAttr : Option String) :
    Option (Option String) :=
  ((recs.filter (fun r => decide (some r.id = idAttr ∧ r.newName ≠ r.currentName))).getLast?).map
    PartRecord.newName

/-- Set the text of the first child tagged `trackName`, if any
(`part.find('trackName')` followed by the text assignment). -/
def setFirstTN (v : Option String) : List XML → List XML
  | [] => []
  | .elem t a s c :: rest =>
    if t = "trackName" then .elem t a v c :: rest
    else .elem t a s c :: setFirstTN v rest

mutual
/-- Effect of the `save_file` update loop on a subtree: every `Part` element
(at any depth) whose `id` attribute matches a changed record gets the text of
its first `trackName` child overwritten with that record's `new_name`. -/
def rewriteElem (recs : List PartRecord) : XML → XML
  | .elem t a s c =>
    let c1 := rewriteList recs c
    if t = "Part" then
      match lastChangedName recs (attrLookup a "id") with
      | some nm => .elem t a s (setFirstTN nm c1)
      | none => .elem t a s c1
    else .elem t a s c1
def rewriteList (recs : List PartRecord) : List XML → List XML
  | [] => []
  | x :: xs => rewriteElem recs x :: rewriteList recs xs
end

/-- Effect of the update loop on the whole document: `root.findall('.//Part')`
never yields the root itself, so the root element is not a mutation target. -/
def rewriteDoc (recs : List PartRecord) : XML → XML
  | .elem t a s c => .elem t a s (rewriteList recs c)

mutual
/-- Blank out (set to `none`) exactly the text slots that the update loop may
write: the text of the first `trackName` child of every matched `Part`.  Two
documents that agree after masking differ at most in those slots. -/
def maskElem (recs : List PartRecord) : XML → XML
  | .elem t a s c =>
    let c1 := maskList recs c
    if t = "Part" then
      match lastChangedName recs (attrLookup a "id") with
      | some _ => .elem t a s (setFirstTN none c1)
      | none => .elem t a s c1
    else .elem t a s c1
def maskList (recs : List PartRecord) : List XML → List XML
  | [] => []
  | x :: xs => maskElem recs x :: maskList recs xs
end

def maskDoc (recs : List PartRecord) : XML → XML
  | .elem t a s c => .elem t a s (maskList recs c)

/-- Content of a zip member: raw bytes, or the parsed tree for the member the
program treats as the score document. -/
inductive MemberData : Type where
  | raw (bytes : List Nat)
  | xml (doc : XML)

/-- One member of a zip archive: stored name, `ZipInfo.compress_type`, data. -/
structure ZipMember where
  filename : String
  compressType : Nat
  data : MemberData

abbrev Archive := List ZipMember

/-- Python `zipfile.ZIP_DEFLATED`. -/
def ZIP_DEFLATED : Nat := 8

/-- Read a member's bytes by name (`ZipFile.read` / `ZipFile.open` go through
`getinfo`, whose name table keeps the last member for a duplicated name). -/
def arcRead (arc : Archive) (name : String) : Option MemberData :=
  ((arc.filter (fun m => m.filename = name)).getLast?).map ZipMember.data

/-- The modelled filesystem: paths bound to archive files. -/
abbrev FS := List (String × Archive)

def fsLookup : FS → String → Option Archive
  | [], _ => none
  | (q, a) :: rest, p => if q = p then some a else fsLookup rest p

def fsRemove : FS → String → FS
  | [], _ => []
  | (q, a) :: rest, p => if q = p then fsRemove rest p else (q, a) :: fsRemove rest p

def fsSet (fs : FS) (p : String) (a : Archive) : FS :=
  (p, a) :: fsRemove fs p

/-- The `counter`-th backup name tried by `save_file`:
`current_file.replace('.mscz', '_backup.mscz')` first, then
`current_file.replace('.mscz', '_backup_' + str(counter) + '.mscz')`
(the source spells the second replacement as an f-string). -/
def backupCandidate (path : String) (k : Nat) : String :=
  if k = 0 then pyReplace path ".mscz" "_backup.mscz"
  else pyReplace path ".mscz" ("_backup_" ++ Nat.repr k ++ ".mscz")

/-- The `while os.path.exists(backup_file)` loop.  The fuel makes the search
total; `save_file` supplies one more unit than there are files, so the fuel
can only run out when every candidate collides, that is when the path does not
contain ".mscz" at all — in that situation the Python loop never terminates. -/
def backupSearch (fs : FS) (path : String) : Nat → Nat → Option String
  | _, 0 => none
  | k, fuel + 1 =>
    if (fsLookup fs (backupCandidate path k)).isNone then some (backupCandidate path k)
    else backupSearch fs path (k + 1) fuel

def findBackupPath (fs : FS) (path : String) : Option String :=
  backupSearch fs path 0 (fs.length + 1)

def mscxName (m : ZipMember) : Bool :=
  strEndsWith m.filename ".mscx"

/-- The member written for `item` by the rebuild loop of `save_file`.  A
document member is re-read by name, parsed, rewritten and written under its
name with the archive defaults (`ZIP_DEFLATED`); any other member is written
via `writestr(item, original.read(item.filename))`, so its `ZipInfo` — name
and compression method included — is reused while its bytes are re-read by
name.  `none` models a parse failure (the member is not an XML document). -/
def rewriteMember (recs : List PartRecord) (arc : Archive) (m : ZipMember) :
    Option ZipMember :=
  if mscxName m then
    match arcRead arc m.filename with
    | some (.xml d) => some ⟨m.filename, ZIP_DEFLATED, .xml (rewriteDoc recs d)⟩
    | _ => none
  else
    match arcRead arc m.filename with
    | some dta => some ⟨m.filename, m.compressType, dta⟩
    | none => none

/-- A filesystem-visible action of `save_file`, in execution order:
the backup copy, one member write with the compression method and level
actually passed to the zip writer, the deletion of the original, and the move
of the rebuilt archive onto the original path. -/
inductive FsOp : Type where
  | copy2 (src dst : String)
  | writeMember (name : String) (ctype : Nat) (clevel : Option Nat)
  | remove (p : String)
  | moveIn (dst : String)
deriving DecidableEq, Repr

/-- The write operation for one original member: `writestr(item.filename, ...)`
uses the archive defaults (method `ZIP_DEFLATED`, level 6), while
`writestr(item, ...)` reuses `item.compress_type` and leaves the level unset. -/
def writeOp (m : ZipMember) : FsOp :=
  if mscxName m then .writeMember m.filename ZIP_DEFLATED (some 6)
  else .writeMember m.filename m.compressType none

/-- The rebuild loop over `original.infolist()`: the rebuilt member list (or
`none` on the first parse failure) together with the member writes performed
up to that point. -/
def buildLoop (recs : List PartRecord) (arc : Archive) :
    List ZipMember → Option (List ZipMember) × List FsOp
  | [] => (some [], [])
  | m :: ms =>
    match rewriteMember recs arc m with
    | none => (none, [])
    | some m' =>
      let rest := buildLoop recs arc ms
      (rest.1.map (fun l => m' :: l), writeOp m :: rest.2)

/-- What `save_file` reports: the early "No changes to save" return, the
success dialog with the change count and backup name, or the caught exception
shown by the error dialog. -/
inductive SaveResult : Type where
  | noChanges
  | saved (numChanges : Nat) (backupPath : String)
  | error
deriving DecidableEq, Repr

/-- Failure injection for the steps guarded by `try`/`except`: `copyFails`
makes `shutil.copy2` raise (before writing anything), `buildFails` makes the
rebuild raise after the backup was written. -/
structure SaveEnv where
  copyFails : Bool
  buildFails : Bool
deriving DecidableEq, Repr

structure SaveOutcome where
  result : SaveResult
  fs : FS
  recs : List PartRecord
  trace : List FsOp

/-- The change count computed before saving:
`sum(1 for p in parts_data if p['new_name'] != p['current_name'])`. -/
def changedCount (recs : List PartRecord) : Nat :=
  recs.countP (fun r => r.newName ≠ r.currentName)

/-- The `save_file` method of the source, for an already-selected file. -/
def save_file (env : SaveEnv) (fs : FS) (path : String) (recs : List PartRecord) :
    SaveOutcome :=
  if ∀ r ∈ recs, r.newName = r.currentName then
    ⟨.noChanges, fs, recs, []⟩
  else
    match findBackupPath fs path with
    | none => ⟨.error, fs, recs, []⟩
    | some backup =>
      match fsLookup fs path with
      | none => ⟨.error, fs, recs, []⟩
      | some orig =>
        if env.copyFails then ⟨.error, fs, recs, []⟩
        else
          let fs1 := fsSet fs backup orig
          if env.buildFails then ⟨.error, fs1, recs, [.copy2 path backup]⟩
          else
            match buildLoop recs orig orig with
            | (none, ops) => ⟨.error, fs1, recs, .copy2 path backup :: ops⟩
            | (some newArc, ops) =>
              ⟨.saved (changedCount recs) backup,
               fsSet (fsRemove fs1 path) path newArc,
               recs.map (fun r => { r with currentName := r.newName }),
               .copy2 path backup :: ops ++ [.remove path, .moveIn path]⟩

/-! Basic lemmas about the modelled filesystem and the backup-name search. -/

theorem fsLookup_fsRemove (fs : FS) (p q : String) :
    fsLookup (fsRemove fs p) q = if p = q then none else fsLookup fs q := by
  induction fs with
  | nil => simp [fsRemove, fsLookup]
  | cons e rest ih =>
    obtain ⟨a, arc⟩ := e
    by_cases hap : a = p
    · subst hap
      by_cases haq : a = q
      · subst haq
        simp [fsRemove, fsLookup, ih]
      · simp [fsRemove, fsLookup, ih, haq]
    · by_cases haq : a = q
      · subst haq
        have hpq : ¬ p = a := fun h => hap h.symm
        simp [fsRemove, fsLookup, hap, hpq]
      · simp [fsRemove, fsLookup, hap, haq, ih]

theorem fsLookup_fsSet (fs : FS) (p q : String) (a : Archive) :
    fsLookup (fsSet fs p a) q = if p = q then some a else fsLookup fs q := by
  by_cases hpq : p = q <;> simp [fsSet, fsLookup, hpq, fsLookup_fsRemove]

theorem backupSearch_spec (fs : FS) (path : String) :
    ∀ fuel k b, backupSearch fs path k fuel = some b →
      ∃ j, k ≤ j ∧ b = backupCandidate path j ∧ fsLookup fs b = none ∧
        ∀ i, k ≤ i → i < j → (fsLookup fs (backupCandidate path i)).isSome := by
  intro fuel
  induction fuel with
  | zero => intro k b h; simp [backupSearch] at h
  | succ n ih =>
    intro k b h
    simp only [backupSearch] at h
    split at h
    next hfree =>
      cases h
      refine ⟨k, le_rfl, rfl, ?_, fun i hki hik => absurd hik (by omega)⟩
      simpa [Option.isNone_iff_eq_none] using hfree
    next hocc =>
      obtain ⟨j, hkj, hb, hfree, hall⟩ := ih (k + 1) b h
      refine ⟨j, by omega, hb, hfree, fun i hki hij => ?_⟩
      rcases Nat.eq_or_lt_of_le hki with hik | hik
      · subst hik
        cases hfs : fsLookup fs (backupCandidate path k) with
        | none => exact absurd (by simp [hfs]) hocc
        | some a => simp [hfs]
      · exact hall i hik hij

theorem findBackupPath_spec (fs : FS) (path : String) (b : String)
    (h : findBackupPath fs path = some b) :
    ∃ j, b = backupCandidate path j ∧ fsLookup fs b = none ∧
      ∀ i, i < j → (fsLookup fs (backupCandidate path i)).isSome := by
  obtain ⟨j, _, hb, hfree, hall⟩ := backupSearch_spec fs path (fs.length + 1) 0 b h
  exact ⟨j, hb, hfree, fun i hij => hall i (Nat.zero_le i) hij⟩

/-! Lemmas about the rebuild loop. -/

theorem buildLoop_some (recs : List PartRecord) (arc : Archive) :
    ∀ ms l ops, buildLoop recs arc ms = (some l, ops) →
      List.Forall₂ (fun m m' => rewriteMember recs arc m = some m') ms l ∧
      ops = ms.map writeOp := by
  intro ms
  induction ms with
  | nil =>
    intro l ops h
    simp only [buildLoop, Prod.mk.injEq] at h
    obtain ⟨h1, h2⟩ := h
    cases h1
    exact ⟨List.Forall₂.nil, h2.symm⟩
  | cons m rest ih =>
    intro l ops h
    simp only [buildLoop] at h
    cases hrw : rewriteMember recs arc m with
    | none => rw [hrw] at h; simp at h
    | some m' =>
      rw [hrw] at h
      cases hbl : buildLoop recs arc rest with
      | mk o1 ops1 =>
        rw [hbl] at h
        cases o1 with
        | none => simp at h
        | some l1 =>
          simp only [Option.map_some', Prod.mk.injEq, Option.some.injEq] at h
          obtain ⟨h1, h2⟩ := h
          obtain ⟨hf, hops⟩ := ih l1 ops1 (by rw [hbl])
          subst h1 h2 hops
          exact ⟨List.Forall₂.cons hrw hf, rfl⟩

theorem buildLoop_ops_shape (recs : List PartRecord) (arc : Archive) :
    ∀ ms, ∀ op ∈ (buildLoop recs arc ms).2, ∃ nm ct cl, op = FsOp.writeMember nm ct cl := by
  intro ms
  induction ms with
  | nil => intro op hop; simp [buildLoop] at hop
  | cons m rest ih =>
    intro op hop
    simp only [buildLoop] at hop
    cases hrw : rewriteMember recs arc m with
    | none => rw [hrw] at hop; simp at hop
    | some m' =>
      rw [hrw] at hop
      simp only [List.mem_cons] at hop
      rcases hop with hop | hop
      · subst hop
        unfold writeOp
        split
        · exact ⟨m.filename, ZIP_DEFLATED, some 6, rfl⟩
        · exact ⟨m.filename, m.compressType, none, rfl⟩
      · exact ih op hop

theorem arcRead_of_nodup (arc : Archive) (hd : (arc.map ZipMember.filename).Nodup)
    (m : ZipMember) (hm : m ∈ arc) : arcRead arc m.filename = some m.data := by
  induction arc with
  | nil => cases hm
  | cons a rest ih =>
    simp only [List.map_cons, List.nodup_cons] at hd
    obtain ⟨hnot, hd'⟩ := hd
    rcases List.mem_cons.mp hm with hma | hmr
    · subst hma
      have hrest : rest.filter (fun x => decide (x.filename = m.filename)) = [] := by
        rw [List.filter_eq_nil_iff]
        intro x hx hxe
        exact hnot (by
          have hxm : x.filename = m.filename := by simpa using hxe
          rw [← hxm]
          exact List.mem_map_of_mem ZipMember.filename hx)
      unfold arcRead
      simp [List.filter_cons, hrest]
    · have hne : ¬ a.filename = m.filename := by
        intro hf
        exact hnot (hf ▸ List.mem_map_of_mem ZipMember.filename hmr)
      have hrec := ih hd' hmr
      unfold arcRead at hrec ⊢
      simpa [List.filter_cons, hne] using hrec

/-! Case analysis of `save_file`: it either returns the no-changes outcome
untouched, fails recoverably, or succeeds with the fully described outcome. -/

theorem save_file_shape (env : SaveEnv) (fs : FS) (path : String) (recs : List PartRecord) :
    ((∀ r ∈ recs, r.newName = r.currentName) ∧
      save_file env fs path recs = ⟨.noChanges, fs, recs, []⟩) ∨
    ((save_file env fs path recs).result = .error ∧
      (save_file env fs path recs).recs = recs ∧
      fsLookup (save_file env fs path recs).fs path = fsLookup fs path) ∨
    (∃ b orig newArc,
      ¬ (∀ r ∈ recs, r.newName = r.currentName) ∧
      findBackupPath fs path = some b ∧
      fsLookup fs path = some orig ∧
      fsLookup fs b = none ∧
      env.copyFails = false ∧ env.buildFails = false ∧
      buildLoop recs orig orig = (some newArc, orig.map writeOp) ∧
      save_file env fs path recs =
        ⟨.saved (changedCount recs) b,
         fsSet (fsRemove (fsSet fs b orig) path) path newArc,
         recs.map (fun r => { r with currentName := r.newName }),
         .copy2 path b :: (orig.map writeOp ++ [.remove path, .moveIn path])⟩) := by
  by_cases hch : ∀ r ∈ recs, r.newName = r.currentName
  · left
    exact ⟨hch, by unfold save_file; rw [if_pos hch]⟩
  · cases hfb : findBackupPath fs path with
    | none =>
      right; left
      unfold save_file
      rw [if_neg hch, hfb]
      exact ⟨rfl, rfl, rfl⟩
    | some b =>
      cases ho : fsLookup fs path with
      | none =>
        right; left
        unfold save_file
        rw [if_neg hch, hfb, ho]
        exact ⟨rfl, rfl, ho⟩
      | some orig =>
        have hbfree : fsLookup fs b = none := by
          obtain ⟨j, hbj, hfree, hrest⟩ := findBackupPath_spec fs path b hfb
          exact hfree
        have hbp : ¬ b = path := by
          intro hcontra; rw [hcontra, ho] at hbfree; cases hbfree
        have hfs1 : fsLookup (fsSet fs b orig) path = some orig := by
          rw [fsLookup_fsSet]
          simp [hbp, ho]
        cases hcf : env.copyFails with
        | true =>
          right; left
          unfold save_file
          rw [if_neg hch, hfb, ho, hcf]
          exact ⟨rfl, rfl, ho⟩
        | false =>
          cases hbf : env.buildFails with
          | true =>
            right; left
            unfold save_file
            rw [if_neg hch, hfb, ho, hcf, hbf]
            exact ⟨rfl, rfl, hfs1⟩
          | false =>
            cases hbl : buildLoop recs orig orig with
            | mk o1 ops =>
              cases o1 with
              | none =>
                right; left
                refine ⟨?_, ?_, ?_⟩ <;>
                  (unfold save_file; rw [if_neg hch, hfb, ho, hcf, hbf]; simp only [hbl])
                · rfl
                · rfl
                · exact hfs1
              | some newArc =>
                right; right
                have hops : ops = orig.map writeOp :=
                  (buildLoop_some recs orig orig newArc ops hbl).2
                subst hops
                refine ⟨b, orig, newArc, hch, rfl, rfl, hbfree, rfl, rfl, hbl, ?_⟩
                unfold save_file
                rw [if_neg hch, hfb, ho, hcf, hbf]
                simp only [hbl]
                rfl

/-! Nested induction principle for the XML tree and shape lemmas for the
rewrite and mask traversals. -/

theorem xml_nested_ind {P : XML → Prop} {Q : List XML → Prop}
    (hnil : Q []) (hcons : ∀ x xs, P x → Q xs → Q (x :: xs))
    (helem : ∀ t a s c, Q c → P (XML.elem t a s c)) :
    (∀ x, P x) ∧ (∀ l, Q l) := by
  have key : ∀ n : Nat, (∀ x : XML, sizeOf x ≤ n → P x) ∧
      (∀ l : List XML, sizeOf l ≤ n → Q l) := by
    intro n
    induction n with
    | zero =>
      constructor
      · intro x hx
        cases x with
        | elem t a s c =>
          simp only [XML.elem.sizeOf_spec] at hx
          omega
      · intro l hl
        cases l with
        | nil => exact hnil
        | cons y ys =>
          simp only [List.cons.sizeOf_spec] at hl
          omega
    | succ n ih =>
      constructor
      · intro x hx
        cases x with
        | elem t a s c =>
          apply helem
          apply ih.2
          simp only [XML.elem.sizeOf_spec] at hx
          omega
      · intro l hl
        cases l with
        | nil => exact hnil
        | cons y ys =>
          simp only [List.cons.sizeOf_spec] at hl
          exact hcons y ys (ih.1 y (by omega)) (ih.2 ys (by omega))
  exact ⟨fun x => (key (sizeOf x)).1 x le_rfl, fun l => (key (sizeOf l)).2 l le_rfl⟩

theorem rewriteList_nil (recs : List PartRecord) : rewriteList recs [] = [] := rfl

theorem rewriteList_cons (recs : List PartRecord) (x : XML) (xs : List XML) :
    rewriteList recs (x :: xs) = rewriteElem recs x :: rewriteList recs xs := rfl

theorem maskList_nil (recs : List PartRecord) : maskList recs [] = [] := rfl

theorem maskList_cons (recs : List PartRecord) (x : XML) (xs : List XML) :
    maskList recs (x :: xs) = maskElem recs x :: maskList recs xs := rfl

theorem rewriteElem_not_part (recs : List PartRecord) (t : String)
    (a : List (String × String)) (s : Option String) (c : List XML) (ht : ¬ t = "Part") :
    rewriteElem recs (.elem t a s c) = .elem t a s (rewriteList recs c) := by
  unfold rewriteElem
  rw [if_neg ht]

theorem rewriteElem_part_none (recs : List PartRecord)
    (a : List (String × String)) (s : Option String) (c : List XML)
    (hm : lastChangedName recs (attrLookup a "id") = none) :
    rewriteElem recs (.elem "Part" a s c) = .elem "Part" a s (rewriteList recs c) := by
  unfold rewriteElem
  rw [if_pos rfl, hm]

theorem rewriteElem_part_some (recs : List PartRecord)
    (a : List (String × String)) (s : Option String) (c : List XML) (nm : Option String)
    (hm : lastChangedName recs (attrLookup a "id") = some nm) :
    rewriteElem recs (.elem "Part" a s c) = .elem "Part" a s (setFirstTN nm (rewriteList recs c)) := by
  unfold rewriteElem
  rw [if_pos rfl, hm]

theorem maskElem_not_part (recs : List PartRecord) (t : String)
    (a : List (String × String)) (s : Option String) (c : List XML) (ht : ¬ t = "Part") :
    maskElem recs (.elem t a s c) = .elem t a s (maskList recs c) := by
  unfold maskElem
  rw [if_neg ht]

theorem maskElem_part_none (recs : List PartRecord)
    (a : List (String × String)) (s : Option String) (c : List XML)
    (hm : lastChangedName recs (attrLookup a "id") = none) :
    maskElem recs (.elem "Part" a s c) = .elem "Part" a s (maskList recs c) := by
  unfold maskElem
  rw [if_pos rfl, hm]

theorem maskElem_part_some (recs : List PartRecord)
    (a : List (String × String)) (s : Option String) (c : List XML) (nm : Option String)
    (hm : lastChangedName recs (attrLookup a "id") = some nm) :
    maskElem recs (.elem "Part" a s c) = .elem "Part" a s (setFirstTN none (maskList recs c)) := by
  unfold maskElem
  rw [if_pos rfl, hm]

theorem rewriteElem_shape (recs : List PartRecord) (t : String)
    (a : List (String × String)) (s : Option String) (c : List XML) :
    ∃ c', rewriteElem recs (XML.elem t a s c) = XML.elem t a s c' := by
  by_cases ht : t = "Part"
  · subst ht
    cases hm : lastChangedName recs (attrLookup a "id") with
    | none => exact ⟨_, rewriteElem_part_none recs a s c hm⟩
    | some nm => exact ⟨_, rewriteElem_part_some recs a s c nm hm⟩
  · exact ⟨_, rewriteElem_not_part recs t a s c ht⟩

theorem maskElem_shape (recs : List PartRecord) (t : String)
    (a : List (String × String)) (s : Option String) (c : List XML) :
    ∃ c', maskElem recs (XML.elem t a s c) = XML.elem t a s c' := by
  by_cases ht : t = "Part"
  · subst ht
    cases hm : lastChangedName recs (attrLookup a "id") with
    | none => exact ⟨_, maskElem_part_none recs a s c hm⟩
    | some nm => exact ⟨_, maskElem_part_some recs a s c nm hm⟩
  · exact ⟨_, maskElem_not_part recs t a s c ht⟩

theorem rewriteElem_tag (recs : List PartRecord) (x : XML) :
    (rewriteElem recs x).tag = x.tag := by
  cases x with
  | elem t a s c =>
    obtain ⟨c', hc⟩ := rewriteElem_shape recs t a s c
    rw [hc]
    rfl

theorem rewriteElem_text (recs : List PartRecord) (x : XML) :
    (rewriteElem recs x).text = x.text := by
  cases x with
  | elem t a s c =>
    obtain ⟨c', hc⟩ := rewriteElem_shape recs t a s c
    rw [hc]
    rfl

theorem maskElem_tag (recs : List PartRecord) (x : XML) :
    (maskElem recs x).tag = x.tag := by
  cases x with
  | elem t a s c =>
    obtain ⟨c', hc⟩ := maskElem_shape recs t a s c
    rw [hc]
    rfl

theorem lastChangedName_of_attr_none (recs : List PartRecord) :
    lastChangedName recs none = none := by
  unfold lastChangedName
  have hfil : recs.filter (fun r => decide (some r.id = none ∧ r.newName ≠ r.currentName)) = [] := by
    rw [List.filter_eq_nil_iff]
    intro r hr
    simp
  rw [hfil]
  rfl

theorem setFirstTN_cons (v : Option String) (t : String) (a : List (String × String))
    (s : Option String) (c : List XML) (rest : List XML) :
    setFirstTN v (XML.elem t a s c :: rest) =
      if t = "trackName" then XML.elem t a v c :: rest
      else XML.elem t a s c :: setFirstTN v rest := rfl

theorem setTN_mask (recs : List PartRecord) (v : Option String) :
    ∀ l : List XML, setFirstTN none (maskList recs (setFirstTN v l)) =
      setFirstTN none (maskList recs l) := by
  intro l
  induction l with
  | nil => rfl
  | cons x xs ih =>
    cases x with
    | elem t a s c =>
      by_cases ht : t = "trackName"
      · subst ht
        rw [setFirstTN_cons, if_pos rfl, maskList_cons, maskList_cons,
          maskElem_not_part recs "trackName" a v c (by decide),
          maskElem_not_part recs "trackName" a s c (by decide),
          setFirstTN_cons, if_pos rfl, setFirstTN_cons, if_pos rfl]
      · obtain ⟨c2, hmx⟩ := maskElem_shape recs t a s c
        rw [setFirstTN_cons, if_neg ht, maskList_cons, maskList_cons, hmx,
          setFirstTN_cons, if_neg ht, setFirstTN_cons, if_neg ht, ih]

/-- The masked rewritten document equals the masked original: the update loop
changes nothing outside the masked text slots. -/
theorem mask_rewrite_all (recs : List PartRecord) :
    (∀ x, maskElem recs (rewriteElem recs x) = maskElem recs x) ∧
    (∀ l, maskList recs (rewriteList recs l) = maskList recs l) := by
  refine xml_nested_ind rfl ?_ ?_
  · intro x xs hx hxs
    rw [rewriteList_cons, maskList_cons, hx, maskList_cons, hxs]
  · intro t a s c hc
    by_cases ht : t = "Part"
    · subst ht
      cases hm : lastChangedName recs (attrLookup a "id") with
      | none =>
        rw [rewriteElem_part_none recs a s c hm,
            maskElem_part_none recs a s (rewriteList recs c) hm,
            maskElem_part_none recs a s c hm, hc]
      | some nm =>
        rw [rewriteElem_part_some recs a s c nm hm,
            maskElem_part_some recs a s (setFirstTN nm (rewriteList recs c)) nm hm,
            maskElem_part_some recs a s c nm hm,
            setTN_mask recs nm (rewriteList recs c), hc]
    · rw [rewriteElem_not_part recs t a s c ht,
          maskElem_not_part recs t a s (rewriteList recs c) ht,
          maskElem_not_part recs t a s c ht, hc]

theorem maskDoc_rewriteDoc (recs : List PartRecord) (d : XML) :
    maskDoc recs (rewriteDoc recs d) = maskDoc recs d := by
  cases d with
  | elem t a s c =>
    show XML.elem t a s (maskList recs (rewriteList recs c)) = XML.elem t a s (maskList recs c)
    rw [(mask_rewrite_all recs).2 c]

theorem forall2_append {α β : Type} {R : α → β → Prop} {l₁ u₁ : List α} {l₂ u₂ : List β}
    (h1 : List.Forall₂ R l₁ l₂) (h2 : List.Forall₂ R u₁ u₂) :
    List.Forall₂ R (l₁ ++ u₁) (l₂ ++ u₂) := by
  induction h1 with
  | nil => exact h2
  | cons hab ht ih => exact List.Forall₂.cons hab ih

theorem find_trackName_rewriteList (recs : List PartRecord) :
    ∀ c : List XML, (rewriteList recs c).find? (fun e => e.tag = "trackName") =
      ((c.find? (fun e => e.tag = "trackName")).map (rewriteElem recs)) := by
  intro c
  induction c with
  | nil => rfl
  | cons x xs ih =>
    rw [rewriteList_cons]
    by_cases hx : x.tag = "trackName"
    · have hx' : (rewriteElem recs x).tag = "trackName" := by rw [rewriteElem_tag]; exact hx
      rw [List.find?_cons_of_pos _ (by simp [hx']), List.find?_cons_of_pos _ (by simp [hx])]
      rfl
    · have hx' : ¬ (rewriteElem recs x).tag = "trackName" := by rw [rewriteElem_tag]; exact hx
      rw [List.find?_cons_of_neg _ (by simp [hx']), List.find?_cons_of_neg _ (by simp [hx]), ih]

/-- The text of the first `trackName` child together with its presence: what a
save may modify about a `Part`, and what `load_parts` reads from it. -/
def tnText (x : XML) : Option (Option String) :=
  (x.findChild "trackName").map XML.text

theorem tnText_rewriteList (recs : List PartRecord) (t : String)
    (a : List (String × String)) (s : Option String) (c : List XML) :
    tnText (XML.elem t a s (rewriteList recs c)) = tnText (XML.elem t a s c) := by
  unfold tnText XML.findChild
  simp only [XML.children]
  rw [find_trackName_rewriteList]
  cases hf : c.find? (fun e => e.tag = "trackName") with
  | none => rfl
  | some e => simp [rewriteElem_text]

/-- The `Part` elements of one subtree, the subtree root included. -/
def partsOf (x : XML) : List XML :=
  (XML.allNodes x).filter (fun e => e.tag = "Part")

/-- The `Part` elements of a forest of subtrees, in document order. -/
def partsOfList (l : List XML) : List XML :=
  (allNodesList l).filter (fun e => e.tag = "Part")

theorem findallParts_eq_partsOfList (root : XML) :
    findallParts root = partsOfList root.children := rfl

theorem partsOfList_cons (x : XML) (xs : List XML) :
    partsOfList (x :: xs) = partsOf x ++ partsOfList xs := by
  unfold partsOfList partsOf
  rw [show allNodesList (x :: xs) = XML.allNodes x ++ allNodesList xs from rfl,
    List.filter_append]

theorem partsOf_elem (t : String) (a : List (String × String)) (s : Option String)
    (c : List XML) :
    partsOf (XML.elem t a s c) =
      (if t = "Part" then [XML.elem t a s c] else []) ++ partsOfList c := by
  unfold partsOf partsOfList
  rw [show XML.allNodes (XML.elem t a s c) = XML.elem t a s c :: allNodesList c from rfl,
    List.filter_cons]
  by_cases ht : t = "Part"
  · simp [XML.tag, ht]
  · simp [XML.tag, ht]

theorem partsOfList_setFirstTN (v : Option String) :
    ∀ l : List XML, partsOfList (setFirstTN v l) = partsOfList l := by
  intro l
  induction l with
  | nil => rfl
  | cons x xs ih =>
    cases x with
    | elem t a s c =>
      by_cases ht : t = "trackName"
      · rw [setFirstTN_cons, if_pos ht, partsOfList_cons, partsOfList_cons,
          partsOf_elem, partsOf_elem]
        have htp : ¬ t = "Part" := by rw [ht]; decide
        simp [htp]
      · rw [setFirstTN_cons, if_neg ht, partsOfList_cons, partsOfList_cons, ih]

/-- Relation between an original `Part` element and its rewritten image: the
`id` attribute is unchanged, and when that attribute is absent the presence
and text of the first `trackName` child are also unchanged. -/
def idTn (p q : XML) : Prop :=
  p.attr "id" = q.attr "id" ∧ (p.attr "id" = none → tnText q = tnText p)

theorem parts_rewrite_all (recs : List PartRecord) :
    (∀ x, List.Forall₂ idTn (partsOf x) (partsOf (rewriteElem recs x))) ∧
    (∀ l, List.Forall₂ idTn (partsOfList l) (partsOfList (rewriteList recs l))) := by
  refine xml_nested_ind ?_ ?_ ?_
  · rw [rewriteList_nil]
    exact List.Forall₂.nil
  · intro x xs hx hxs
    rw [rewriteList_cons, partsOfList_cons, partsOfList_cons]
    exact forall2_append hx hxs
  · intro t a s c hc
    by_cases ht : t = "Part"
    · subst ht
      cases hm : lastChangedName recs (attrLookup a "id") with
      | none =>
        rw [rewriteElem_part_none recs a s c hm, partsOf_elem, partsOf_elem,
          if_pos rfl, if_pos rfl]
        simp only [List.singleton_append]
        exact List.Forall₂.cons ⟨rfl, fun _ => tnText_rewriteList recs "Part" a s c⟩ hc
      | some nm =>
        rw [rewriteElem_part_some recs a s c nm hm, partsOf_elem, partsOf_elem,
          if_pos rfl, if_pos rfl, partsOfList_setFirstTN nm]
        simp only [List.singleton_append]
        refine List.Forall₂.cons ⟨rfl, ?_⟩ hc
        intro hid
        have hid' : attrLookup a "id" = none := hid
        rw [hid', lastChangedName_of_attr_none] at hm
        cases hm
    · rw [rewriteElem_not_part recs t a s c ht, partsOf_elem, partsOf_elem,
        if_neg ht, if_neg ht]
      simpa using hc

/-! Lemmas for the positional numbering of `add_numbers`: the index of `i` in
the filtered index list equals the number of earlier records with the same
`current_name`. -/

theorem indexOf_append_left {l1 l2 : List Nat} {a : Nat} (h : a ∈ l1) :
    (l1 ++ l2).indexOf a = l1.indexOf a := by
  induction l1 with
  | nil => cases h
  | cons b t ih =>
    by_cases hba : b = a
    · subst hba
      simp [List.indexOf_cons_self]
    · have hat : a ∈ t := by
        rcases List.mem_cons.mp h with h1 | h1
        · exact absurd h1.symm hba
        · exact h1
      rw [List.cons_append, List.indexOf_cons_ne _ hba, List.indexOf_cons_ne _ hba, ih hat]

theorem indexOf_append_right {l1 l2 : List Nat} {a : Nat} (h : a ∉ l1) :
    (l1 ++ l2).indexOf a = l1.length + l2.indexOf a := by
  induction l1 with
  | nil => simp
  | cons b t ih =>
    have hba : b ≠ a := fun hc => h (hc ▸ List.mem_cons_self b t)
    have hat : a ∉ t := fun hc => h (List.mem_cons_of_mem b hc)
    rw [List.cons_append, List.indexOf_cons_ne _ hba, ih hat, List.length_cons]
    omega

theorem indexOf_filter_range (P : Nat → Bool) :
    ∀ n i, i < n → P i = true →
      ((List.range n).filter P).indexOf i = ((List.range i).filter P).length := by
  intro n
  induction n with
  | zero => intro i hi hP; omega
  | succ n ih =>
    intro i hi hP
    rw [List.range_succ, List.filter_append]
    rcases Nat.lt_or_ge i n with hin | hin
    · have hmem : i ∈ (List.range n).filter P := by
        rw [List.mem_filter]
        exact ⟨List.mem_range.mpr hin, hP⟩
      rw [indexOf_append_left hmem, ih i hin hP]
    · have hin' : i = n := by omega
      subst hin'
      have hnot : i ∉ (List.range i).filter P := by
        intro hc
        have hmem := (List.mem_filter.mp hc).1
        simp [List.mem_range] at hmem
      rw [indexOf_append_right hnot]
      simp [List.filter_cons, hP, List.indexOf_cons_self]

theorem filter_range_length_eq_countP_take (recs : List PartRecord) (n : Option String) :
    ∀ i, i ≤ recs.length →
      ((List.range i).filter
          (fun j => recs[j]?.map PartRecord.currentName = some n)).length =
        (recs.take i).countP (fun p => p.currentName = n) := by
  intro i
  induction i with
  | zero => intro hle; rfl
  | succ i ih =>
    intro hle
    have hi : i < recs.length := by omega
    rw [List.range_succ, List.filter_append, List.length_append, ih (by omega),
      List.take_succ, List.countP_append]
    by_cases hc : recs[i].currentName = n
    · simp [List.filter_cons, List.countP_cons, List.getElem?_eq_getElem hi, hc]
    · simp [List.filter_cons, List.countP_cons, List.getElem?_eq_getElem hi, hc]

theorem sameNameIdx_indexOf (recs : List PartRecord) (i : Nat) (r : PartRecord)
    (hr : recs[i]? = some r) :
    (sameNameIdx recs r.currentName).indexOf i =
      (recs.take i).countP (fun p => p.currentName = r.currentName) := by
  have hi : i < recs.length := by
    by_contra hcon
    rw [List.getElem?_eq_none (by omega)] at hr
    cases hr
  have hP : decide (recs[i]?.map PartRecord.currentName = some r.currentName) = true := by
    rw [hr]
    simp
  unfold sameNameIdx
  rw [indexOf_filter_range _ recs.length i hi hP,
    filter_range_length_eq_countP_take recs r.currentName i (le_of_lt hi)]

theorem addNumbersAux_getElem? (recs : List PartRecord) :
    ∀ (l : List PartRecord) (k j : Nat),
      (addNumbersAux recs k l)[j]? = (l[j]?).map (fun r => numberedName recs (k + j) r) := by
  intro l
  induction l with
  | nil => intro k j; simp [addNumbersAux]
  | cons r rest ih =>
    intro k j
    cases j with
    | zero => simp [addNumbersAux]
    | succ j =>
      simp only [addNumbersAux, List.getElem?_cons_succ]
      rw [ih (k + 1) j]
      have hadd : k + 1 + j = k + (j + 1) := by omega
      rw [hadd]

theorem add_numbers_getElem? (recs : List PartRecord) (i : Nat) :
    (add_numbers recs)[i]? = (recs[i]?).map (fun r => numberedName recs i r) := by
  unfold add_numbers
  rw [addNumbersAux_getElem? recs recs 0 i]
  simp

theorem numberedName_currentName (recs : List PartRecord) (i : Nat) (r : PartRecord) :
    (numberedName recs i r).currentName = r.currentName := by
  unfold numberedName
  split <;> rfl

theorem add_numbers_map_currentName (recs : List PartRecord) :
    (add_numbers recs).map PartRecord.currentName = recs.map PartRecord.currentName := by
  apply List.ext_getElem?
  intro i
  rw [List.getElem?_map, List.getElem?_map, add_numbers_getElem?]
  cases hr : recs[i]? with
  | none => rfl
  | some r => simp [numberedName_currentName]

theorem nameCount_congr (recs recs' : List PartRecord) (n : Option String)
    (h : recs.map PartRecord.currentName = recs'.map PartRecord.currentName) :
    nameCount recs n = nameCount recs' n := by
  unfold nameCount
  have e1 : ∀ s : List PartRecord,
      s.countP (fun r => r.currentName = n) =
        (s.map PartRecord.currentName).countP (fun c => c = n) := by
    intro s
    rw [List.countP_map]
    rfl
  rw [e1, e1, h]

theorem sameNameIdx_congr (recs recs' : List PartRecord) (n : Option String)
    (h : recs.map PartRecord.currentName = recs'.map PartRecord.currentName) :
    sameNameIdx recs n = sameNameIdx recs' n := by
  have hlen : recs.length = recs'.length := by
    have hl := congrArg List.length h
    simpa using hl
  unfold sameNameIdx
  rw [hlen]
  apply List.filter_congr
  intro j hj
  have e : recs[j]?.map PartRecord.currentName = recs'[j]?.map PartRecord.currentName := by
    rw [← List.getElem?_map, ← List.getElem?_map, h]
  rw [e]

theorem numberedName_congr (recs recs' : List PartRecord) (i : Nat) (r : PartRecord)
    (h : recs.map PartRecord.currentName = recs'.map PartRecord.currentName) :
    numberedName recs i r = numberedName recs' i r := by
  unfold numberedName
  rw [nameCount_congr recs recs' r.currentName h, sameNameIdx_congr recs recs' r.currentName h]

theorem numberedName_twice (recs : List PartRecord) (i : Nat) (r : PartRecord) :
    numberedName recs i (numberedName recs i r) = numberedName recs i r := by
  by_cases hdup : 1 < nameCount recs r.currentName
  · have h1 : numberedName recs i r =
        { r with newName := some (pyStr r.currentName ++ " " ++
          Nat.repr ((sameNameIdx recs r.currentName).indexOf i + 1)) } := by
      unfold numberedName
      rw [if_pos hdup]
    rw [h1]
    unfold numberedName
    rw [if_pos (show 1 < nameCount recs
      ({ r with newName := some (pyStr r.currentName ++ " " ++
        Nat.repr ((sameNameIdx recs r.currentName).indexOf i + 1)) } :
          PartRecord).currentName from hdup)]
  · have h1 : numberedName recs i r = r := by
      unfold numberedName
      rw [if_neg hdup]
    rw [h1, h1]

/-! Concrete states used by witnesses and counterexamples. -/

/-- A `Part` element with an id and a named `trackName` child. -/
def exPart1 : XML :=
  .elem "Part" [("id", "1")] none [.elem "trackName" [] (some "Flute") []]

/-- A `Part` element with no `id` attribute. -/
def exPart2 : XML :=
  .elem "Part" [] none [.elem "trackName" [] (some "Oboe") []]

def exDoc : XML :=
  .elem "museScore" [] none [.elem "Score" [] none [exPart1, exPart2]]

def exArc : Archive :=
  [⟨"score.mscx", 8, .xml exDoc⟩, ⟨"Thumbnails/t.png", 0, .raw [3, 1, 4]⟩]

def exFS : FS := [("piece.mscz", exArc)]

/-- Records as loaded from `exDoc`, with the first name edited. -/
def exRecs : List PartRecord :=
  [⟨"1", some "Flute", some "Flute I"⟩, ⟨"Unknown", some "Oboe", some "Oboe"⟩]

def envOk : SaveEnv := ⟨false, false⟩

def envCopyFail : SaveEnv := ⟨true, false⟩

def noChangeRecs : List PartRecord :=
  [⟨"1", some "Flute", some "Flute"⟩, ⟨"2", some "Oboe", some "Oboe"⟩]

def violinRecs : List PartRecord :=
  [⟨"1", some "Violin", some "Violin"⟩, ⟨"2", some "Violin", some "Violin"⟩,
   ⟨"3", some "Oboe", some "Oboe"⟩]

def violinNumbered : List PartRecord :=
  [⟨"1", some "Violin", some "Violin 1"⟩, ⟨"2", some "Violin", some "Violin 2"⟩,
   ⟨"3", some "Oboe", some "Oboe"⟩]

/-- A document whose only `Part` has a `trackName` child with empty text
(Python parses `<trackName></trackName>` with `text is None`). -/
def emptyTNDoc : XML :=
  .elem "museScore" [] none
    [.elem "Part" [("id", "1")] none [.elem "trackName" [] none []]]

/-- C2: for every record set in which every record has `proposedName ==
currentName`, saving does nothing: `save_file` returns the no-changes result,
creates no backup, performs no filesystem operation, and leaves both the
filesystem and the in-memory record set unchanged. -/
theorem save_no_changes_noop (env : SaveEnv) (fs : FS) (path : String)
    (recs : List PartRecord) (h : ∀ r ∈ recs, r.newName = r.currentName) :
    save_file env fs path recs = ⟨.noChanges, fs, recs, []⟩ := by
  unfold save_file
  rw [if_pos h]

/-- Witness for C2 at a concrete filesystem and record set. -/
theorem save_no_changes_noop_witness :
    save_file envOk exFS "piece.mscz" noChangeRecs = ⟨.noChanges, exFS, noChangeRecs, []⟩ :=
  save_no_changes_noop envOk exFS "piece.mscz" noChangeRecs (by decide)

/-- C9: bulk numbering is idempotent before a save: applying `add_numbers`
twice yields the same record set as applying it once, because the numbering
is computed from `current_name` values only, which `add_numbers` never
modifies. -/
theorem add_numbers_idempotent (recs : List PartRecord) :
    add_numbers (add_numbers recs) = add_numbers recs := by
  apply List.ext_getElem?
  intro i
  rw [add_numbers_getElem?, add_numbers_getElem?]
  cases hr : recs[i]? with
  | none => rfl
  | some r =>
    simp only [Option.map_some']
    rw [numberedName_congr (add_numbers recs) recs i (numberedName recs i r)
        (add_numbers_map_currentName recs),
      numberedName_twice]

/-- C7 counterexample: loading a `Part` whose `trackName` element is present
but has empty text stores the empty (Python `None`) text as the record name,
not the literal "Unknown" that the claim asserts for empty text. -/
theorem load_empty_trackName_counterexample :
    load_parts emptyTNDoc = [⟨"1", none, none⟩] ∧
    (none : Option String) ≠ some "Unknown" := by
  exact ⟨rfl, by decide⟩

/-- C7 (amended): for every `Part` met during load, the record's id is the
`id` attribute, or "Unknown" when the attribute is absent; the record's
`currentName` (and its initial `newName`) is the text of the child
`trackName` element whenever that element is present — even when that text is
empty (`none`) — and the literal "Unknown" only when the element is absent. -/
theorem load_part_fields (root : XML) (i : Nat) (p : XML)
    (hp : (findallParts root)[i]? = some p) :
    (load_parts root)[i]? = some (loadPart p) ∧
    (p.attr "id" = none → (loadPart p).id = "Unknown") ∧
    (∀ v, p.attr "id" = some v → (loadPart p).id = v) ∧
    (p.findChild "trackName" = none →
      (loadPart p).currentName = some "Unknown" ∧ (loadPart p).newName = some "Unknown") ∧
    (∀ e, p.findChild "trackName" = some e →
      (loadPart p).currentName = e.text ∧ (loadPart p).newName = e.text) := by
  refine ⟨?_, ?_, ?_, ?_, ?_⟩
  · unfold load_parts
    rw [List.getElem?_map, hp]
    rfl
  · intro h
    unfold loadPart
    rw [h]
    rfl
  · intro v h
    unfold loadPart
    rw [h]
    rfl
  · intro h
    unfold loadPart
    rw [h]
    exact ⟨rfl, rfl⟩
  · intro e h
    unfold loadPart
    rw [h]
    exact ⟨rfl, rfl⟩

/-- Witness for the amended C7 at the first part of `exDoc`. -/
theorem load_part_fields_witness :
    (load_parts exDoc)[0]? = some (loadPart exPart1) ∧
    (loadPart exPart1).id = "1" ∧
    (loadPart exPart1).currentName = some "Flute" := by
  have h := load_part_fields exDoc 0 exPart1 rfl
  exact ⟨h.1, h.2.2.1 "1" rfl,
    (h.2.2.2.2 (XML.elem "trackName" [] (some "Flute") []) rfl).1⟩

/-- C8: bulk numbering leaves lengths and every `current_name` unchanged; a
record whose `current_name` occurs more than once gets `new_name` set to its
`current_name`, a space, and one plus the number of earlier records with the
same `current_name` (its 1-based position in document order), while a record
with a unique `current_name` is left untouched; `add_numbers` sends the names
Violin, Violin, Oboe to Violin 1, Violin 2, Oboe; and on a record set with
all-unique `current_name` values it changes nothing. -/
theorem add_numbers_spec (recs : List PartRecord) (i : Nat) (r : PartRecord)
    (hr : recs[i]? = some r) :
    (add_numbers recs).length = recs.length ∧
    (add_numbers recs).map PartRecord.currentName = recs.map PartRecord.currentName ∧
    (add_numbers recs)[i]? =
      some (if 1 < nameCount recs r.currentName then
        { r with newName := some (pyStr r.currentName ++ " " ++
            Nat.repr ((recs.take i).countP (fun p => p.currentName = r.currentName) + 1)) }
       else r) ∧
    add_numbers violinRecs = violinNumbered ∧
    (∀ s : List PartRecord, (∀ m, nameCount s m ≤ 1) → add_numbers s = s) := by
  refine ⟨?_, add_numbers_map_currentName recs, ?_, by decide, ?_⟩
  · have hl := congrArg List.length (add_numbers_map_currentName recs)
    simpa using hl
  · rw [add_numbers_getElem?, hr]
    simp only [Option.map_some', Option.some.injEq]
    unfold numberedName
    rw [sameNameIdx_indexOf recs i r hr]
  · intro s hs
    apply List.ext_getElem?
    intro j
    rw [add_numbers_getElem?]
    cases hj : s[j]? with
    | none => rfl
    | some q =>
      simp only [Option.map_some', Option.some.injEq]
      unfold numberedName
      rw [if_neg (by have hq := hs q.currentName; omega)]

/-- Witness for C8 on the Violin, Violin, Oboe record set. -/
theorem add_numbers_spec_witness :
    (add_numbers violinRecs).length = violinRecs.length ∧
    (add_numbers violinRecs).map PartRecord.currentName =
      violinRecs.map PartRecord.currentName ∧
    (add_numbers violinRecs)[0]? =
      some (if 1 < nameCount violinRecs (some "Violin") then
        { id := "1", currentName := some "Violin",
          newName := some (pyStr (some "Violin") ++ " " ++
            Nat.repr ((violinRecs.take 0).countP
              (fun p => p.currentName = some "Violin") + 1)) }
       else ⟨"1", some "Violin", some "Violin"⟩) ∧
    add_numbers violinRecs = violinNumbered ∧
    add_numbers [⟨"3", some "Oboe", some "Oboe"⟩] = [⟨"3", some "Oboe", some "Oboe"⟩] := by
  have h := add_numbers_spec violinRecs 0 ⟨"1", some "Violin", some "Violin"⟩ (by decide)
  exact ⟨h.1, h.2.1, h.2.2.1, h.2.2.2.1,
    h.2.2.2.2 [⟨"3", some "Oboe", some "Oboe"⟩]
      (fun m => le_trans (List.countP_le_length _) (by decide))⟩

theorem setNewNameAt_map_currentName :
    ∀ (recs : List PartRecord) (i : Nat) (nm : String),
      (setNewNameAt recs i nm).map PartRecord.currentName =
        recs.map PartRecord.currentName := by
  intro recs
  induction recs with
  | nil => intro i nm; rfl
  | cons r rest ih =>
    intro i nm
    cases i with
    | zero => simp [setNewNameAt]
    | succ i => simp [setNewNameAt, ih]

/-- C4: whenever `save_file` reports an error, the original container is left
with its pre-save content and the in-memory record set is unmodified; and an
injected failure of the backup copy or of the rebuild, on a record set with at
least one change, is reported as the recoverable error result. -/
theorem save_failure_recoverable (env : SaveEnv) (fs : FS) (path : String)
    (recs : List PartRecord) :
    ((save_file env fs path recs).result = .error →
      fsLookup (save_file env fs path recs).fs path = fsLookup fs path ∧
      (save_file env fs path recs).recs = recs) ∧
    ((¬ ∀ r ∈ recs, r.newName = r.currentName) →
      (env.copyFails = true ∨ env.buildFails = true) →
      (save_file env fs path recs).result = .error) := by
  rcases save_file_shape env fs path recs with ⟨hch, heq⟩ |
    ⟨h1, h2, h3⟩ | ⟨b, orig, newArc, hch, hfb, ho, hfree, hcf, hbf, hbl, heq⟩
  · constructor
    · intro herr
      rw [heq] at herr
      simp at herr
    · intro hne _
      exact absurd hch hne
  · exact ⟨fun _ => ⟨h3, h2⟩, fun _ _ => h1⟩
  · constructor
    · intro herr
      rw [heq] at herr
      simp at herr
    · intro _ hfail
      rcases hfail with hf | hf
      · rw [hcf] at hf
        simp at hf
      · rw [hbf] at hf
        simp at hf

/-- Witness for C4: an injected `shutil.copy2` failure on a changed record
set errors out, touches nothing, and keeps all records. -/
theorem save_failure_recoverable_witness :
    (save_file envCopyFail exFS "piece.mscz" exRecs).result = .error ∧
    fsLookup (save_file envCopyFail exFS "piece.mscz" exRecs).fs "piece.mscz" =
      fsLookup exFS "piece.mscz" ∧
    (save_file envCopyFail exFS "piece.mscz" exRecs).recs = exRecs := by
  have h := save_failure_recoverable envCopyFail exFS "piece.mscz" exRecs
  have herr : (save_file envCopyFail exFS "piece.mscz" exRecs).result = .error :=
    h.2 (by decide) (Or.inl rfl)
  exact ⟨herr, (h.1 herr).1, (h.1 herr).2⟩

/-- C5: `current_name` is written only by the final step of a successful
save.  Bulk numbering and the edit dialog preserve every `current_name`; any
save that does not succeed returns the record set unmodified; and a
successful save sets `current_name := new_name` on every record, reports a
change count equal to the number of records whose `new_name` differed from
`current_name` immediately before the save, and afterwards every record
satisfies `current_name = new_name`. -/
theorem currentName_persistence (env : SaveEnv) (fs : FS) (path : String)
    (recs : List PartRecord) (i : Nat) (entry : String) :
    (add_numbers recs).map PartRecord.currentName = recs.map PartRecord.currentName ∧
    (apply_change recs i entry).map PartRecord.currentName =
      recs.map PartRecord.currentName ∧
    ((∀ nc bp, (save_file env fs path recs).result ≠ .saved nc bp) →
      (save_file env fs path recs).recs = recs) ∧
    (∀ nc bp, (save_file env fs path recs).result = .saved nc bp →
      (save_file env fs path recs).recs =
        recs.map (fun r => { r with currentName := r.newName }) ∧
      nc = changedCount recs ∧
      ∀ r ∈ (save_file env fs path recs).recs, r.currentName = r.newName) := by
  refine ⟨add_numbers_map_currentName recs, ?_, ?_, ?_⟩
  · simp only [apply_change]
    split
    · exact setNewNameAt_map_currentName recs i (pyStrip entry)
    · rfl
  · intro hns
    rcases save_file_shape env fs path recs with ⟨hch, heq⟩ |
      ⟨h1, h2, h3⟩ | ⟨b, orig, newArc, hch, hfb, ho, hfree, hcf, hbf, hbl, heq⟩
    · rw [heq]
    · exact h2
    · exact absurd (by rw [heq]) (hns (changedCount recs) b)
  · intro nc bp hs
    rcases save_file_shape env fs path recs with ⟨hch, heq⟩ |
      ⟨h1, h2, h3⟩ | ⟨b, orig, newArc, hch, hfb, ho, hfree, hcf, hbf, hbl, heq⟩
    · rw [heq] at hs
      simp at hs
    · rw [h1] at hs
      simp at hs
    · rw [heq] at hs
      simp only [SaveResult.saved.injEq] at hs
      obtain ⟨hnc, hbp⟩ := hs
      refine ⟨by rw [heq], hnc.symm, ?_⟩
      intro r hr
      rw [heq] at hr
      simp only [List.mem_map] at hr
      obtain ⟨x, hx, hxr⟩ := hr
      rw [← hxr]

/-- Witness for C5 at a concrete successful save. -/
theorem currentName_persistence_witness :
    (add_numbers exRecs).map PartRecord.currentName = exRecs.map PartRecord.currentName ∧
    (apply_change exRecs 0 "Cello").map PartRecord.currentName =
      exRecs.map PartRecord.currentName ∧
    ((save_file envOk exFS "piece.mscz" exRecs).recs =
        exRecs.map (fun r => { r with currentName := r.newName }) ∧
      1 = changedCount exRecs ∧
      ∀ r ∈ (save_file envOk exFS "piece.mscz" exRecs).recs, r.currentName = r.newName) := by
  have h := currentName_persistence envOk exFS "piece.mscz" exRecs 0 "Cello"
  exact ⟨h.1, h.2.1, h.2.2.2 1 "piece_backup.mscz" rfl⟩

/-- C3: every successful save uses as backup path the first non-colliding
candidate — `'.mscz'` replaced by `'_backup.mscz'`, then by
`'_backup_1.mscz'`, `'_backup_2.mscz'`, and so on — and copies the original
container to it verbatim: in the final state the backup holds exactly the
pre-save content of the original path, and in the operation trace the copy
strictly precedes every operation that touches the original path (all
intervening operations are member writes into the scratch archive). -/
theorem save_backup_protocol (env : SaveEnv) (fs : FS) (path : String)
    (recs : List PartRecord) (n : Nat) (b : String)
    (hres : (save_file env fs path recs).result = .saved n b) :
    (∃ k, b = backupCandidate path k ∧ fsLookup fs b = none ∧
      ∀ j, j < k → (fsLookup fs (backupCandidate path j)).isSome) ∧
    backupCandidate path 0 = pyReplace path ".mscz" "_backup.mscz" ∧
    (∀ k, backupCandidate path (k + 1) =
      pyReplace path ".mscz" ("_backup_" ++ Nat.repr (k + 1) ++ ".mscz")) ∧
    fsLookup (save_file env fs path recs).fs b = fsLookup fs path ∧
    (∃ ops, (save_file env fs path recs).trace =
        .copy2 path b :: (ops ++ [.remove path, .moveIn path]) ∧
      ∀ op ∈ ops, ∃ nm ct cl, op = FsOp.writeMember nm ct cl) := by
  rcases save_file_shape env fs path recs with ⟨hch, heq⟩ |
    ⟨h1, h2, h3⟩ | ⟨b', orig, newArc, hch, hfb, ho, hfree, hcf, hbf, hbl, heq⟩
  · rw [heq] at hres
    simp at hres
  · rw [h1] at hres
    simp at hres
  · rw [heq] at hres
    simp only [SaveResult.saved.injEq] at hres
    obtain ⟨hnc, hbp⟩ := hres
    rw [hbp] at hfb hfree heq
    have hbpath : ¬ b = path := by
      intro hc
      rw [hc, ho] at hfree
      cases hfree
    refine ⟨?_, rfl, fun k => rfl, ?_, ?_⟩
    · obtain ⟨j, hbj, hf, hall⟩ := findBackupPath_spec fs path b hfb
      exact ⟨j, hbj, hf, hall⟩
    · rw [heq]
      show fsLookup (fsSet (fsRemove (fsSet fs b orig) path) path newArc) b = fsLookup fs path
      rw [fsLookup_fsSet, if_neg (fun hc => hbpath hc.symm),
        fsLookup_fsRemove, if_neg (fun hc => hbpath hc.symm),
        fsLookup_fsSet, if_pos rfl, ho]
    · refine ⟨orig.map writeOp, by rw [heq], ?_⟩
      intro op hop
      have hsh := buildLoop_ops_shape recs orig orig
      rw [hbl] at hsh
      exact hsh op hop

/-- Witness for C3 at a concrete successful save. -/
theorem save_backup_protocol_witness :
    (∃ k, "piece_backup.mscz" = backupCandidate "piece.mscz" k ∧
      fsLookup exFS "piece_backup.mscz" = none ∧
      ∀ j, j < k → (fsLookup exFS (backupCandidate "piece.mscz" j)).isSome) ∧
    backupCandidate "piece.mscz" 0 = pyReplace "piece.mscz" ".mscz" "_backup.mscz" ∧
    (∀ k, backupCandidate "piece.mscz" (k + 1) =
      pyReplace "piece.mscz" ".mscz" ("_backup_" ++ Nat.repr (k + 1) ++ ".mscz")) ∧
    fsLookup (save_file envOk exFS "piece.mscz" exRecs).fs "piece_backup.mscz" =
      fsLookup exFS "piece.mscz" ∧
    (∃ ops, (save_file envOk exFS "piece.mscz" exRecs).trace =
        .copy2 "piece.mscz" "piece_backup.mscz" ::
          (ops ++ [.remove "piece.mscz", .moveIn "piece.mscz"]) ∧
      ∀ op ∈ ops, ∃ nm ct cl, op = FsOp.writeMember nm ct cl) :=
  save_backup_protocol envOk exFS "piece.mscz" exRecs 1 "piece_backup.mscz" rfl

/-- C6 counterexample: in a successful save on `exFS` the document member is
written with method `ZIP_DEFLATED` (8) at level 6 while the thumbnail member
is written with its original method `ZIP_STORED` (0) and no explicit level —
the written members do not share one fixed compression method/level, because
`writestr` with a `ZipInfo` reuses that member's `compress_type`. -/
theorem compression_not_uniform :
    (save_file envOk exFS "piece.mscz" exRecs).trace =
      [.copy2 "piece.mscz" "piece_backup.mscz",
       .writeMember "score.mscx" 8 (some 6),
       .writeMember "Thumbnails/t.png" 0 none,
       .remove "piece.mscz", .moveIn "piece.mscz"] ∧
    (0 : Nat) ≠ ZIP_DEFLATED := by
  exact ⟨rfl, by decide⟩

/-- C6 (amended): in every successful save the document member is written
with the archive defaults — the fixed method `ZIP_DEFLATED`, level 6 — while
every other member is written through its original `ZipInfo` and therefore
keeps its own original compression method, with no explicit level. -/
theorem compression_per_member (env : SaveEnv) (fs : FS) (path : String)
    (recs : List PartRecord) (n : Nat) (b : String)
    (hres : (save_file env fs path recs).result = .saved n b) :
    ∃ orig, fsLookup fs path = some orig ∧
      (save_file env fs path recs).trace =
        .copy2 path b :: (orig.map writeOp ++ [.remove path, .moveIn path]) ∧
      ∀ m ∈ orig,
        (strEndsWith m.filename ".mscx" = true →
          writeOp m = .writeMember m.filename ZIP_DEFLATED (some 6)) ∧
        (strEndsWith m.filename ".mscx" = false →
          writeOp m = .writeMember m.filename m.compressType none) := by
  rcases save_file_shape env fs path recs with ⟨hch, heq⟩ |
    ⟨h1, h2, h3⟩ | ⟨b', orig, newArc, hch, hfb, ho, hfree, hcf, hbf, hbl, heq⟩
  · rw [heq] at hres
    simp at hres
  · rw [h1] at hres
    simp at hres
  · rw [heq] at hres
    simp only [SaveResult.saved.injEq] at hres
    obtain ⟨hnc, hbp⟩ := hres
    rw [hbp] at heq
    refine ⟨orig, ho, by rw [heq], ?_⟩
    intro m hm
    constructor
    · intro hmx
      unfold writeOp
      rw [if_pos (show mscxName m = true from hmx)]
    · intro hmx
      unfold writeOp
      rw [if_neg (show ¬ mscxName m = true by unfold mscxName; rw [hmx]; decide)]

/-- Witness for the amended C6 at a concrete successful save. -/
theorem compression_per_member_witness :
    ∃ orig, fsLookup exFS "piece.mscz" = some orig ∧
      (save_file envOk exFS "piece.mscz" exRecs).trace =
        .copy2 "piece.mscz" "piece_backup.mscz" ::
          (orig.map writeOp ++ [.remove "piece.mscz", .moveIn "piece.mscz"]) ∧
      ∀ m ∈ orig,
        (strEndsWith m.filename ".mscx" = true →
          writeOp m = .writeMember m.filename ZIP_DEFLATED (some 6)) ∧
        (strEndsWith m.filename ".mscx" = false →
          writeOp m = .writeMember m.filename m.compressType none) :=
  compression_per_member envOk exFS "piece.mscz" exRecs 1 "piece_backup.mscz" rfl

/-- An archive with two members sharing the stored name "a.txt" but holding
different bytes. -/
def dupArc : Archive :=
  [⟨"score.mscx", 8, .xml exDoc⟩, ⟨"a.txt", 0, .raw [1]⟩, ⟨"a.txt", 0, .raw [2]⟩]

def dupFS : FS := [("dup.mscz", dupArc)]

/-- C1 counterexample: the rebuild reads member bytes by name
(`original.read(item.filename)`), and the zip name table keeps the last entry
for a duplicated name; saving `dupFS` succeeds but writes the bytes `[2]` for
both "a.txt" members, so the original member ("a.txt", bytes `[1]`) — a
non-document member — is not contained in the rewritten archive with its
content intact, contradicting the claim as stated. -/
theorem save_dup_names_breaks_frame :
    fsLookup dupFS "dup.mscz" = some dupArc ∧
    (save_file envOk dupFS "dup.mscz" exRecs).result = .saved 1 "dup_backup.mscz" ∧
    fsLookup (save_file envOk dupFS "dup.mscz" exRecs).fs "dup.mscz" =
      some [⟨"score.mscx", ZIP_DEFLATED, .xml (rewriteDoc exRecs exDoc)⟩,
            ⟨"a.txt", 0, .raw [2]⟩, ⟨"a.txt", 0, .raw [2]⟩] ∧
    (MemberData.raw [2]) ≠ (MemberData.raw [1]) := by
  refine ⟨rfl, rfl, rfl, ?_⟩
  intro h
  injection h with h2
  exact absurd h2 (by decide)

/-- C1 (amended): for every successful save on an archive whose member names
are pairwise distinct, the rewritten archive has the same member list
pointwise: every member whose name does not end in ".mscx" is reproduced
identically (name, compression method and content bytes), and the document
member keeps its name, holds the rewritten tree, and its tree differs from
the original only in the text of the first `trackName` child of `Part`
elements matched by a changed record — masking exactly those slots makes the
two trees equal. -/
theorem save_frame_effect (env : SaveEnv) (fs : FS) (path : String)
    (recs : List PartRecord) (n : Nat) (b : String) (orig : Archive)
    (hres : (save_file env fs path recs).result = .saved n b)
    (horig : fsLookup fs path = some orig)
    (hnodup : (orig.map ZipMember.filename).Nodup) :
    ∃ newArc, fsLookup (save_file env fs path recs).fs path = some newArc ∧
      newArc.length = orig.length ∧
      ∀ (i : Nat) (m m' : ZipMember), orig[i]? = some m → newArc[i]? = some m' →
        (strEndsWith m.filename ".mscx" = false → m' = m) ∧
        (strEndsWith m.filename ".mscx" = true →
          ∃ d, m.data = .xml d ∧
            m' = ⟨m.filename, ZIP_DEFLATED, .xml (rewriteDoc recs d)⟩ ∧
            maskDoc recs (rewriteDoc recs d) = maskDoc recs d) := by
  rcases save_file_shape env fs path recs with ⟨hch, heq⟩ |
    ⟨h1, h2, h3⟩ | ⟨b', orig', newArc, hch, hfb, ho, hfree, hcf, hbf, hbl, heq⟩
  · rw [heq] at hres
    simp at hres
  · rw [h1] at hres
    simp at hres
  · rw [ho] at horig
    injection horig with horig'
    have horig2 : orig = orig' := horig'.symm
    subst horig2
    rw [heq] at hres
    simp only [SaveResult.saved.injEq] at hres
    obtain ⟨hnc, hbp⟩ := hres
    rw [hbp] at heq
    obtain ⟨hfa, hops⟩ := buildLoop_some recs orig orig newArc (orig.map writeOp) hbl
    refine ⟨newArc, ?_, (List.Forall₂.length_eq hfa).symm, ?_⟩
    · rw [heq]
      show fsLookup (fsSet (fsRemove (fsSet fs b orig) path) path newArc) path = some newArc
      rw [fsLookup_fsSet, if_pos rfl]
    · intro i m m' hm hm'
      have hilt : i < orig.length := by
        by_contra hcon
        rw [List.getElem?_eq_none (by omega)] at hm
        cases hm
      have hilt' : i < newArc.length := by
        by_contra hcon
        rw [List.getElem?_eq_none (by omega)] at hm'
        cases hm'
      have hmem : m ∈ orig := by
        rw [List.getElem?_eq_getElem hilt] at hm
        injection hm with hm
        rw [← hm]
        exact List.getElem_mem hilt
      have hrel : rewriteMember recs orig m = some m' := by
        have hget := (List.forall₂_iff_get.mp hfa).2 i hilt hilt'
        rw [List.getElem?_eq_getElem hilt] at hm
        rw [List.getElem?_eq_getElem hilt'] at hm'
        injection hm with hm
        injection hm' with hm'
        rw [← hm, ← hm'] at *
        simpa [List.get_eq_getElem] using hget
      have hread : arcRead orig m.filename = some m.data :=
        arcRead_of_nodup orig hnodup m hmem
      constructor
      · intro hmx
        unfold rewriteMember at hrel
        rw [if_neg (show ¬ mscxName m = true by unfold mscxName; rw [hmx]; decide),
          hread] at hrel
        injection hrel with hrel
        rw [← hrel]
      · intro hmx
        unfold rewriteMember at hrel
        rw [if_pos (show mscxName m = true from hmx), hread] at hrel
        cases hdata : m.data with
        | raw bs =>
          rw [hdata] at hrel
          simp at hrel
        | xml d =>
          rw [hdata] at hrel
          injection hrel with hrel
          exact ⟨d, rfl, hrel.symm, maskDoc_rewriteDoc recs d⟩

/-- Witness for the amended C1 at a concrete successful save. -/
theorem save_frame_effect_witness :
    ∃ newArc, fsLookup (save_file envOk exFS "piece.mscz" exRecs).fs "piece.mscz" =
        some newArc ∧
      newArc.length = exArc.length ∧
      ∀ (i : Nat) (m m' : ZipMember), exArc[i]? = some m → newArc[i]? = some m' →
        (strEndsWith m.filename ".mscx" = false → m' = m) ∧
        (strEndsWith m.filename ".mscx" = true →
          ∃ d, m.data = .xml d ∧
            m' = ⟨m.filename, ZIP_DEFLATED, .xml (rewriteDoc exRecs d)⟩ ∧
            maskDoc exRecs (rewriteDoc exRecs d) = maskDoc exRecs d) :=
  save_frame_effect envOk exFS "piece.mscz" exRecs 1 "piece_backup.mscz" exArc rfl rfl
    (by decide)

/-- C10: `load_parts` records a `Part` with no `id` attribute under the
literal id "Unknown", while the save matches document elements against the
raw attribute (`part.get('id')`, which is Python `None` for an absent
attribute and equals no string); hence, in every archive document — in
particular one where no `Part` carries the literal attribute value
id="Unknown" — a save leaves both the presence and the text of the first
`trackName` child of every id-less `Part` unchanged, whatever the records
propose. -/
theorem idless_parts_unmatched (recs : List PartRecord) (root : XML)
    (hnoUnknown : ∀ p ∈ findallParts root, ¬ p.attr "id" = some "Unknown") :
    (∀ p : XML, p.attr "id" = none → (loadPart p).id = "Unknown") ∧
    List.Forall₂ idTn (findallParts root) (findallParts (rewriteDoc recs root)) := by
  constructor
  · intro p hid
    unfold loadPart
    rw [hid]
    rfl
  · cases root with
    | elem t a s c =>
      show List.Forall₂ idTn (partsOfList c) (findallParts (rewriteDoc recs (XML.elem t a s c)))
      show List.Forall₂ idTn (partsOfList c) (partsOfList (rewriteList recs c))
      exact (parts_rewrite_all recs).2 c

/-- Witness for C10: the document `exDoc` has one id-less `Part`, and the
relation holds concretely for a changed record set. -/
theorem idless_parts_unmatched_witness :
    (loadPart exPart2).id = "Unknown" ∧
    List.Forall₂ idTn (findallParts exDoc) (findallParts (rewriteDoc exRecs exDoc)) := by
  have h := idless_parts_unmatched exRecs exDoc (by decide)
  exact ⟨h.1 exPart2 rfl, h.2⟩

end Mscz
